import Mathlib

/-!
Verification development for the gpt-investing screening algorithm
(src/gpt_investing/algorithm.py).

Modelling conventions:
- Python floats are modelled as exact numbers: rationals for the pure
  universe-scoring pipeline, reals where a square root occurs
  (volatility and the per-ticker fetch path).  Every modelled value is
  therefore finite, so the source's math.isfinite test is identically
  true in the model.
- Python dicts are modelled as insertion-ordered association lists;
  assignment to an existing key overwrites the value in place, a new key
  is appended (CPython dict semantics).
- The yfinance network calls of _fetch_analysis are replaced by an
  explicit RawSnapshot record of the fields the code reads; inside
  analyze_universe the per-ticker fetch is abstracted as a function from
  ticker to one of three outcomes (success, AnalysisError, unexpected
  exception), mirroring the three except-branches of the source loop.
- Exceptions are modelled with Except String; the two fatal error
  messages are built exactly as the source f-strings build them.
-/

namespace GptInvesting

/-- LOOKBACK_DAYS = 21 from the source. -/
def LOOKBACK_DAYS : Nat := 21

/-- Container for the raw metrics computed for a ticker
(dataclass StockAnalysis).  The numeric type is a parameter so that the
pure scoring pipeline can use exact rationals while the fetch path,
which takes a square root, uses reals.  The last_updated wall-clock
timestamp field is omitted: no computation reads it. -/
structure StockAnalysis (K : Type) where
  ticker : String
  momentum_21d : Option K := none
  volatility_21d : Option K := none
  pe_ratio : Option K := none
  pb_ratio : Option K := none
  free_cash_flow_yield : Option K := none
  market_cap : Option K := none
deriving DecidableEq

/-- Scoring output for a ticker (dataclass RankedStock). -/
structure RankedStock where
  ticker : String
  composite_score : ℚ
  value_score : ℚ
  momentum_score : ℚ
  risk_score : ℚ
  analysis : StockAnalysis ℚ
deriving DecidableEq

/-- Ranked output plus failed tickers (dataclass AnalysisSummary);
failures is an insertion-ordered dict from ticker to reason. -/
structure AnalysisSummary where
  ranked : List RankedStock
  failures : List (String × String)
deriving DecidableEq

/-- def _compute_momentum.  Python negative indices close_prices[-1] and
close_prices[-(LOOKBACK_DAYS+1)] are positions length-1 and length-22;
both are in range because of the length guard, so the getD default is
never used in the ok branch. -/
def _compute_momentum {K : Type} [Field K] (close_prices : List K) :
    Except String K :=
  if close_prices.length ≤ LOOKBACK_DAYS then
    .error "Not enough price history to compute momentum"
  else
    .ok (close_prices.getD (close_prices.length - 1) 0 /
      close_prices.getD (close_prices.length - (LOOKBACK_DAYS + 1)) 0 - 1)

/-- math.isclose with the default tolerances rel_tol=1e-9, abs_tol=0.0:
the test is |a-b| <= 1e-9 * max(|a|, |b|), exact over the rationals. -/
def isclose (a b : ℚ) : Bool :=
  decide (|a - b| ≤ 1 / 1000000000 * max |a| |b|)

/-- def _normalize.  The metric dict is an insertion-ordered association
list from ticker to optional value; the output preserves its key order,
as a Python dict comprehension over metric does.  In this exact model
every value is finite, so the valid sub-dict keeps exactly the entries
whose value is present.  The source tests membership of a ticker in
valid; because metric is a dict (unique keys) that is equivalent to the
entry's own value being present, which is how it is written here. -/
def _normalize (metric : List (String × Option ℚ)) (higher_is_better : Bool) :
    List (String × ℚ) :=
  let valid := metric.filterMap fun p => p.2.map fun v => (p.1, v)
  match valid with
  | [] => metric.map fun p => (p.1, 0)
  | (_, v0) :: rest =>
    let min_value := rest.foldl (fun m q => min m q.2) v0
    let max_value := rest.foldl (fun m q => max m q.2) v0
    if isclose min_value max_value then
      metric.map fun p => (p.1, if p.2.isSome then (1 : ℚ) else 0)
    else
      let scale := max_value - min_value
      metric.map fun p =>
        match p.2 with
        | none => (p.1, 0)
        | some v =>
          let score := (v - min_value) / scale
          (p.1, if higher_is_better then score else 1 - score)

/-- ANNUALIZATION_FACTOR = math.sqrt(252). -/
noncomputable def ANNUALIZATION_FACTOR : ℝ := Real.sqrt 252

/-- def _compute_volatility.  returns[-LOOKBACK_DAYS:] is the suffix of
the last 21 returns, i.e. drop (length - 21); the variance divides by
LOOKBACK_DAYS = N = 21 (population variance, no Bessel correction). -/
noncomputable def _compute_volatility (returns : List ℝ) : Except String ℝ :=
  if returns.length < LOOKBACK_DAYS then
    .error "Not enough return history to compute volatility"
  else
    let window := returns.drop (returns.length - LOOKBACK_DAYS)
    let mean := window.sum / (LOOKBACK_DAYS : ℝ)
    let variance :=
      (window.map fun r => (r - mean) ^ 2).sum / (LOOKBACK_DAYS : ℝ)
    .ok (Real.sqrt variance * ANNUALIZATION_FACTOR)

/-- pandas Series.pct_change().dropna() on a chronological close series:
the list of simple period-over-period percent changes, the first
observation dropped since it has no prior. -/
def _pct_changes {K : Type} [Field K] : List K → List K
  | a :: b :: rest => (b / a - 1) :: _pct_changes (b :: rest)
  | _ => []

/-- The fields _fetch_analysis reads from the external data source for
one ticker: the chronological daily closes from the price history, the
fast_info entries pe_ratio, trailing_pe, pb_ratio, price_to_book and
market_cap, and the most recent Free Cash Flow row of the cashflow
statement (none when the statement is missing, empty, or has no
free-cash-flow row). -/
structure RawSnapshot where
  close : List ℝ
  pe_ratio : Option ℝ := none
  trailing_pe : Option ℝ := none
  pb_ratio : Option ℝ := none
  price_to_book : Option ℝ := none
  market_cap : Option ℝ := none
  free_cash_flow : Option ℝ := none

/-- Python's a or b on two optional floats: a unless a is falsy (absent
or equal to 0.0), in which case b. -/
noncomputable def pyOr (a b : Option ℝ) : Option ℝ :=
  match a with
  | some v => if v = 0 then b else some v
  | none => b

/-- def _fetch_analysis, with the network calls replaced by the snapshot
of the fields the code reads.  history.empty is the empty close list.
Momentum and volatility failures propagate as AnalysisError; the
free-cash-flow yield is computed only when free cash flow is present and
market_cap is truthy (present and nonzero). -/
noncomputable def _fetch_analysis (ticker : String) (snap : RawSnapshot) :
    Except String (StockAnalysis ℝ) := do
  if snap.close.isEmpty then
    throw "No price history available"
  let momentum ← _compute_momentum snap.close
  let returns := _pct_changes snap.close
  let volatility ← _compute_volatility returns
  let pe_ratio := pyOr snap.pe_ratio snap.trailing_pe
  let pb_ratio := pyOr snap.pb_ratio snap.price_to_book
  let market_cap := snap.market_cap
  let free_cash_flow_yield :=
    match snap.free_cash_flow, market_cap with
    | some f, some m => if m = 0 then none else some (f / m)
    | _, _ => none
  return { ticker := ticker
           momentum_21d := some momentum
           volatility_21d := some volatility
           pe_ratio := pe_ratio
           pb_ratio := pb_ratio
           free_cash_flow_yield := free_cash_flow_yield
           market_cap := market_cap }

/-- Outcome of one per-ticker fetch inside the analyze_universe loop,
matching its three control paths: a StockAnalysis, an AnalysisError
(caught softly), or an unexpected exception (re-raised wrapped). -/
inductive FetchOutcome where
  | ok (a : StockAnalysis ℚ)
  | soft (reason : String)
  | hard (message : String)

/-- CPython dict assignment d[k] = v: overwrite in place when the key
exists, else append at the end. -/
def dictInsert {β : Type} (d : List (String × β)) (k : String) (v : β) :
    List (String × β) :=
  if d.any fun p => p.1 == k then
    d.map fun p => if p.1 == k then (k, v) else p
  else d ++ [(k, v)]

/-- Keys of an association-list dict, in insertion order. -/
def keys {β : Type} (d : List (String × β)) : List String := d.map Prod.fst

/-- The per-ticker loop of analyze_universe (lines 155-161): successes
accumulate in the analyses dict, AnalysisErrors in the failures dict,
and an unexpected exception aborts the whole loop wrapped with the
offending ticker. -/
def gatherOutcomes (fetch : String → FetchOutcome) :
    List String → List (String × StockAnalysis ℚ) → List (String × String) →
    Except String (List (String × StockAnalysis ℚ) × List (String × String))
  | [], analyses, failures => .ok (analyses, failures)
  | ticker :: rest, analyses, failures =>
    match fetch ticker with
    | .ok a => gatherOutcomes fetch rest (dictInsert analyses ticker a) failures
    | .soft reason =>
      gatherOutcomes fetch rest analyses (dictInsert failures ticker reason)
    | .hard message =>
      .error ("Failed to analyze " ++ ticker ++ ": " ++ message)

/-- The joined reasons of the zero-survivors fatal message:
", ".join(f"{ticker} ({reason})" over the failures dict). -/
def failureReasonsText (failures : List (String × String)) : String :=
  String.intercalate ", " (failures.map fun p => p.1 ++ " (" ++ p.2 ++ ")")

/-- Python dict lookup scores[ticker] in the scoring loop; the key is
always present there (every score dict is built over the same tickers as
analyses), so the 0 default is never reached by the pipeline. -/
def scoreOf (scores : List (String × ℚ)) (t : String) : ℚ :=
  (scores.lookup t).getD 0

/-- Lines 167-204 of analyze_universe: build the five metric vectors
over the surviving tickers, normalize each, and assemble one RankedStock
per ticker with the value mean, the momentum and risk scores, and the
weighted composite. -/
def buildRanked (analyses : List (String × StockAnalysis ℚ))
    (value_weight momentum_weight risk_weight : ℚ) : List RankedStock :=
  let pe_ratios := analyses.map fun p => (p.1, p.2.pe_ratio)
  let pb_ratios := analyses.map fun p => (p.1, p.2.pb_ratio)
  let fcf_yields := analyses.map fun p => (p.1, p.2.free_cash_flow_yield)
  let momenta := analyses.map fun p => (p.1, p.2.momentum_21d)
  let volatilities := analyses.map fun p => (p.1, p.2.volatility_21d)
  let pe_scores := _normalize pe_ratios false
  let pb_scores := _normalize pb_ratios false
  let fcf_scores := _normalize fcf_yields true
  let momentum_scores := _normalize momenta true
  let risk_scores := _normalize volatilities false
  analyses.map fun p =>
    let value_components :=
      (if p.2.pe_ratio.isSome then [scoreOf pe_scores p.1] else []) ++
      (if p.2.pb_ratio.isSome then [scoreOf pb_scores p.1] else []) ++
      (if p.2.free_cash_flow_yield.isSome then [scoreOf fcf_scores p.1] else [])
    let value_score :=
      if value_components.isEmpty then 0
      else value_components.sum / value_components.length
    let momentum_score := scoreOf momentum_scores p.1
    let risk_score := scoreOf risk_scores p.1
    { ticker := p.1
      composite_score := value_weight * value_score +
        momentum_weight * momentum_score + risk_weight * risk_score
      value_score := value_score
      momentum_score := momentum_score
      risk_score := risk_score
      analysis := p.2 }

/-- ranked.sort(key=composite_score, reverse=True): CPython's sort is
stable, and reverse=True keeps equal elements in their original order,
which is exactly stable merge sort under the flipped comparison. -/
def rankDescending (ranked : List RankedStock) : List RankedStock :=
  ranked.mergeSort fun a b => decide (b.composite_score ≤ a.composite_score)

/-- def analyze_universe, with the per-ticker fetch abstracted as a
function from ticker to outcome.  top_n is an optional count (the
source's Optional[int], in its documented nonnegative use) and, as in
the source signature (top_n: Optional[int] = 20), defaults to 20 when
the caller leaves it unset. -/
def analyze_universe (fetch : String → FetchOutcome) (tickers : List String)
    (value_weight momentum_weight risk_weight : ℚ)
    (top_n : Option Nat := some 20) :
    Except String AnalysisSummary :=
  match gatherOutcomes fetch tickers [] [] with
  | .error e => .error e
  | .ok (analyses, failures) =>
    if analyses.isEmpty then
      .error ("Unable to analyze any tickers. Reasons: " ++
        failureReasonsText failures)
    else
      let sorted :=
        rankDescending (buildRanked analyses value_weight momentum_weight
          risk_weight)
      let ranked :=
        match top_n with
        | some n => sorted.take n
        | none => sorted
      .ok { ranked := ranked, failures := failures }

/-- Modelled from the spec: the unweighted mean of a list of scores,
0 when the list is empty (step 5 of the Universe Scorer). -/
def unweightedMean (xs : List ℚ) : ℚ :=
  if xs = [] then 0 else xs.sum / xs.length

/-- Modelled from the spec: population variance of a list of reals,
dividing by N (the list length), not N-1. -/
noncomputable def populationVariance (l : List ℝ) : ℝ :=
  (l.map fun r => (r - l.sum / l.length) ^ 2).sum / l.length

/-- Fixture: a fetch that succeeds for every ticker with an analysis
holding no optional metrics. -/
def cFetchOk : String → FetchOutcome := fun t => .ok { ticker := t }

/-- Fixture: a fetch whose ticker A soft-fails while every other ticker
succeeds with an analysis holding no optional metrics. -/
def cFetchMix : String → FetchOutcome := fun t =>
  if t == "A" then .soft "No price history available" else .ok { ticker := t }

/-- Fixture: a fetch that soft-fails every ticker. -/
def cFetchSoft : String → FetchOutcome := fun _ =>
  .soft "No price history available"

/-- Fixture: a fetch whose ticker B raises an unexpected error while
every other ticker succeeds. -/
def cFetchHard : String → FetchOutcome := fun t =>
  if t == "B" then .hard "boom" else .ok { ticker := t }

/-- Fixture: the summary of the mixed run (ticker A soft-fails, ticker B
survives with all-zero scores). -/
def mixSummary : AnalysisSummary :=
  { ranked := [{ ticker := "B", composite_score := 0, value_score := 0, momentum_score := 0, risk_score := 0, analysis := { ticker := "B" } }]
    failures := [("A", "No price history available")] }

/-- Fixture: the summary of the capped all-success run on tickers A and
B with top_n = 1: only A survives the truncation. -/
def capSummary : AnalysisSummary :=
  { ranked := [{ ticker := "A", composite_score := 0, value_score := 0, momentum_score := 0, risk_score := 0, analysis := { ticker := "A" } }]
    failures := [] }

/-- Fixture: the analyses dict gathered by the mixed run. -/
def mixAnalyses : List (String × StockAnalysis ℚ) := [("B", { ticker := "B" })]

/-- Fixture: the failure dict gathered by the mixed run. -/
def mixFailures : List (String × String) :=
  [("A", "No price history available")]

/-- Fixture: twenty-one distinct tickers, one more than the source's
default result cap. -/
def ts21 : List String :=
  ["A", "B", "C", "D", "E", "F", "G", "H", "I", "J", "K", "L", "M", "N",
    "O", "P", "Q", "R", "S", "T", "U"]

/-- Fixture: the analyses dict gathered when every one of the 21
tickers fetches successfully with no optional metrics. -/
def okAnalyses21 : List (String × StockAnalysis ℚ) :=
  ts21.map fun t => (t, { ticker := t })

section FoldBounds

/-- The running minimum over the metric values never exceeds its seed. -/
theorem foldl_min_le_seed (l : List (String × ℚ)) (a : ℚ) :
    l.foldl (fun m q => min m q.2) a ≤ a := by
  induction l generalizing a with
  | nil => simp
  | cons p t ih => exact le_trans (ih (min a p.2)) (min_le_left _ _)

/-- The running minimum over the metric values is a lower bound for
every listed value. -/
theorem foldl_min_le_mem {l : List (String × ℚ)} {q : String × ℚ}
    (hq : q ∈ l) (a : ℚ) : l.foldl (fun m q => min m q.2) a ≤ q.2 := by
  induction l generalizing a with
  | nil => cases hq
  | cons p t ih =>
    rcases List.mem_cons.mp hq with h | h
    · subst h
      exact le_trans (foldl_min_le_seed t (min a q.2)) (min_le_right _ _)
    · exact ih h (min a p.2)

/-- The running maximum over the metric values is at least its seed. -/
theorem seed_le_foldl_max (l : List (String × ℚ)) (a : ℚ) :
    a ≤ l.foldl (fun m q => max m q.2) a := by
  induction l generalizing a with
  | nil => simp
  | cons p t ih => exact le_trans (le_max_left _ _) (ih (max a p.2))

/-- The running maximum over the metric values is an upper bound for
every listed value. -/
theorem mem_le_foldl_max {l : List (String × ℚ)} {q : String × ℚ}
    (hq : q ∈ l) (a : ℚ) : q.2 ≤ l.foldl (fun m q => max m q.2) a := by
  induction l generalizing a with
  | nil => cases hq
  | cons p t ih =>
    rcases List.mem_cons.mp hq with h | h
    · subst h
      exact le_trans (le_max_right _ _) (seed_le_foldl_max t (max a q.2))
    · exact ih h (max a p.2)

/-- Folding min over entries that all carry the seed value returns the
seed. -/
theorem foldl_min_const {l : List (String × ℚ)} {c : ℚ}
    (h : ∀ q ∈ l, q.2 = c) : l.foldl (fun m q => min m q.2) c = c := by
  induction l with
  | nil => rfl
  | cons p t ih =>
    have hp : p.2 = c := h p (List.mem_cons_self p t)
    simpa [hp] using ih fun q hq => h q (List.mem_cons_of_mem p hq)

/-- Folding max over entries that all carry the seed value returns the
seed. -/
theorem foldl_max_const {l : List (String × ℚ)} {c : ℚ}
    (h : ∀ q ∈ l, q.2 = c) : l.foldl (fun m q => max m q.2) c = c := by
  induction l with
  | nil => rfl
  | cons p t ih =>
    have hp : p.2 = c := h p (List.mem_cons_self p t)
    simpa [hp] using ih fun q hq => h q (List.mem_cons_of_mem p hq)

/-- The running minimum over the metric values is its seed or one of
the listed values. -/
theorem foldl_min_attained (l : List (String × ℚ)) (a : ℚ) :
    l.foldl (fun m q => min m q.2) a = a ∨
      ∃ q ∈ l, l.foldl (fun m q => min m q.2) a = q.2 := by
  induction l generalizing a with
  | nil => exact Or.inl rfl
  | cons p t ih =>
    rcases ih (min a p.2) with h | ⟨q, hq, h⟩
    · rcases min_choice a p.2 with hm | hm
      · exact Or.inl (by rw [List.foldl_cons, h, hm])
      · exact Or.inr ⟨p, List.mem_cons_self p t,
          by rw [List.foldl_cons, h, hm]⟩
    · exact Or.inr ⟨q, List.mem_cons_of_mem p hq, by rw [List.foldl_cons, h]⟩

/-- The running maximum over the metric values is its seed or one of
the listed values. -/
theorem foldl_max_attained (l : List (String × ℚ)) (a : ℚ) :
    l.foldl (fun m q => max m q.2) a = a ∨
      ∃ q ∈ l, l.foldl (fun m q => max m q.2) a = q.2 := by
  induction l generalizing a with
  | nil => exact Or.inl rfl
  | cons p t ih =>
    rcases ih (max a p.2) with h | ⟨q, hq, h⟩
    · rcases max_choice a p.2 with hm | hm
      · exact Or.inl (by rw [List.foldl_cons, h, hm])
      · exact Or.inr ⟨p, List.mem_cons_self p t,
          by rw [List.foldl_cons, h, hm]⟩
    · exact Or.inr ⟨q, List.mem_cons_of_mem p hq, by rw [List.foldl_cons, h]⟩

end FoldBounds

/-- A value is close to itself under the default tolerances. -/
theorem isclose_self (c : ℚ) : isclose c c = true := by
  simp only [isclose, decide_eq_true_eq, sub_self, abs_zero]
  positivity

/-- The closeness test is symmetric. -/
theorem isclose_comm (a b : ℚ) : isclose a b = isclose b a := by
  rw [isclose, isclose, abs_sub_comm, max_comm]

/-- Two values one part in ten billion apart pass the default closeness
test (whose relative tolerance is one part in a billion). -/
theorem isclose_near : isclose 1 (1 + 1 / 10000000000) = true := by
  rw [isclose, decide_eq_true_eq,
    show |(1 : ℚ) - (1 + 1 / 10000000000)| = 1 / 10000000000 by
      rw [abs_sub_comm, add_sub_cancel_left]
      exact abs_of_nonneg (by norm_num),
    show |(1 : ℚ)| = 1 from abs_of_nonneg (by norm_num),
    show |(1 : ℚ) + 1 / 10000000000| = 1 + 1 / 10000000000 from
      abs_of_nonneg (by norm_num),
    max_eq_right (by norm_num : (1 : ℚ) ≤ 1 + 1 / 10000000000)]
  norm_num

/-- If the running minimum and maximum of the valid values are not
close, they differ, hence the minimum is strictly below the maximum. -/
theorem min_lt_max_of_not_isclose {l : List (String × ℚ)} {v0 : ℚ}
    (h : isclose (l.foldl (fun m q => min m q.2) v0)
      (l.foldl (fun m q => max m q.2) v0) = false) :
    l.foldl (fun m q => min m q.2) v0 < l.foldl (fun m q => max m q.2) v0 := by
  rcases lt_or_eq_of_le
      (le_trans (foldl_min_le_seed l v0) (seed_le_foldl_max l v0)) with hlt | heq
  · exact hlt
  · rw [heq, isclose_self] at h
    cases h

/-- Pointwise description of a map produces a Forall₂ relation between a
list and its image. -/
theorem forall2_map_self {α β : Type} (f : α → β) (R : α → β → Prop)
    (l : List α) (h : ∀ a ∈ l, R a (f a)) : List.Forall₂ R l (l.map f) := by
  induction l with
  | nil => exact List.Forall₂.nil
  | cons a t ih =>
    exact List.Forall₂.cons (h a (List.mem_cons_self a t))
      (ih fun b hb => h b (List.mem_cons_of_mem a hb))

/-- Branch equation: with no usable value, _normalize maps every ticker
to 0. -/
theorem normalize_eq_of_no_valid {metric : List (String × Option ℚ)}
    {higher_is_better : Bool}
    (h : metric.filterMap (fun p => p.2.map fun v => (p.1, v)) = []) :
    _normalize metric higher_is_better = metric.map fun p => (p.1, 0) := by
  simp only [_normalize, h]

/-- Branch equation: when the extreme usable values are close, every
ticker with a usable value scores 1 and every other ticker scores 0. -/
theorem normalize_eq_of_isclose {metric : List (String × Option ℚ)}
    {higher_is_better : Bool} {s0 : String} {v0 : ℚ}
    {rest : List (String × ℚ)}
    (h : metric.filterMap (fun p => p.2.map fun v => (p.1, v)) =
      (s0, v0) :: rest)
    (hc : isclose (rest.foldl (fun m q => min m q.2) v0)
      (rest.foldl (fun m q => max m q.2) v0) = true) :
    _normalize metric higher_is_better =
      metric.map fun p => (p.1, if p.2.isSome then (1 : ℚ) else 0) := by
  simp only [_normalize, h, hc, if_true]

/-- Branch equation: in the generic case each usable value is linearly
rescaled (and flipped when lower is better); absent values score 0. -/
theorem normalize_eq_of_not_isclose {metric : List (String × Option ℚ)}
    {higher_is_better : Bool} {s0 : String} {v0 : ℚ}
    {rest : List (String × ℚ)}
    (h : metric.filterMap (fun p => p.2.map fun v => (p.1, v)) =
      (s0, v0) :: rest)
    (hc : isclose (rest.foldl (fun m q => min m q.2) v0)
      (rest.foldl (fun m q => max m q.2) v0) = false) :
    _normalize metric higher_is_better =
      metric.map fun p =>
        match p.2 with
        | none => (p.1, 0)
        | some v =>
          (p.1,
            if higher_is_better then
              (v - rest.foldl (fun m q => min m q.2) v0) /
                (rest.foldl (fun m q => max m q.2) v0 -
                  rest.foldl (fun m q => min m q.2) v0)
            else
              1 - (v - rest.foldl (fun m q => min m q.2) v0) /
                (rest.foldl (fun m q => max m q.2) v0 -
                  rest.foldl (fun m q => min m q.2) v0)) := by
  simp only [_normalize, h, hc, Bool.false_eq_true, if_false]

/-- A present value of the metric dict appears, paired with its ticker,
in the valid sub-dict. -/
theorem mem_valid_of_mem {metric : List (String × Option ℚ)}
    {p : String × Option ℚ} {v : ℚ} (hp : p ∈ metric) (hv : p.2 = some v) :
    (p.1, v) ∈ metric.filterMap (fun p => p.2.map fun v => (p.1, v)) :=
  List.mem_filterMap.mpr ⟨p, hp, by rw [hv]; rfl⟩

/-- Every element of the valid sub-dict lies between the folded minimum
and the folded maximum of its values. -/
theorem valid_value_bounds {s0 t : String} {v0 v : ℚ}
    {rest : List (String × ℚ)} (hmem : (t, v) ∈ (s0, v0) :: rest) :
    rest.foldl (fun m q => min m q.2) v0 ≤ v ∧
      v ≤ rest.foldl (fun m q => max m q.2) v0 := by
  rcases List.mem_cons.mp hmem with h | h
  · have hv : v = v0 := congrArg Prod.snd h
    subst hv
    exact ⟨foldl_min_le_seed rest v, seed_le_foldl_max rest v⟩
  · exact ⟨foldl_min_le_mem h v0, mem_le_foldl_max h v0⟩

/-- C3: with at least one present (hence, in this exact model, finite)
value in the metric vector, every normalized score lies in the closed
interval [0, 1]; and entry by entry, a ticker whose value is absent is
normalized to exactly 0, whatever the orientation of the metric. -/
theorem normalize_unit_interval (metric : List (String × Option ℚ))
    (higher_is_better : Bool) (h : ∃ p ∈ metric, p.2.isSome) :
    (∀ q ∈ _normalize metric higher_is_better, 0 ≤ q.2 ∧ q.2 ≤ 1) ∧
      List.Forall₂ (fun p q => p.1 = q.1 ∧ (p.2 = none → q.2 = 0)) metric
        (_normalize metric higher_is_better) := by
  rcases hvalid : metric.filterMap (fun p => p.2.map fun v => (p.1, v)) with
    _ | ⟨⟨s0, v0⟩, rest⟩
  · rw [normalize_eq_of_no_valid hvalid]
    refine ⟨fun q hq => ?_, ?_⟩
    · obtain ⟨p, _, rfl⟩ := List.mem_map.mp hq
      norm_num
    · exact forall2_map_self _ _ _ fun p _ => ⟨rfl, fun _ => rfl⟩
  · rcases hc : isclose (rest.foldl (fun m q => min m q.2) v0)
        (rest.foldl (fun m q => max m q.2) v0) with _ | _
    · have hlt := min_lt_max_of_not_isclose hc
      have hscale : (0 : ℚ) < rest.foldl (fun m q => max m q.2) v0 -
          rest.foldl (fun m q => min m q.2) v0 := sub_pos.mpr hlt
      rw [normalize_eq_of_not_isclose hvalid hc]
      refine ⟨fun q hq => ?_, ?_⟩
      · obtain ⟨p, hp, rfl⟩ := List.mem_map.mp hq
        rcases hp2 : p.2 with _ | v
        · simp [hp2]
        · have hbounds := valid_value_bounds
            (hvalid ▸ mem_valid_of_mem hp hp2)
          have h0 : 0 ≤ (v - rest.foldl (fun m q => min m q.2) v0) /
              (rest.foldl (fun m q => max m q.2) v0 -
                rest.foldl (fun m q => min m q.2) v0) :=
            div_nonneg (sub_nonneg.mpr hbounds.1) hscale.le
          have h1 : (v - rest.foldl (fun m q => min m q.2) v0) /
              (rest.foldl (fun m q => max m q.2) v0 -
                rest.foldl (fun m q => min m q.2) v0) ≤ 1 :=
            (div_le_one hscale).mpr (sub_le_sub_right hbounds.2 _)
          rcases higher_is_better with _ | _ <;> simp [hp2] <;>
            constructor <;> linarith
      · refine forall2_map_self _ _ _ fun p _ => ?_
        rcases hp2 : p.2 with _ | v <;> simp [hp2]
    · rw [normalize_eq_of_isclose hvalid hc]
      refine ⟨fun q hq => ?_, ?_⟩
      · obtain ⟨p, _, rfl⟩ := List.mem_map.mp hq
        rcases hp2 : p.2 with _ | v <;> simp [hp2]
      · refine forall2_map_self _ _ _ fun p _ => ?_
        rcases hp2 : p.2 with _ | v <;> simp [hp2]

/-- Witness for C3 at a concrete three-ticker metric vector. -/
theorem normalize_unit_interval_witness :
    (∃ p ∈ [("A", some (1 : ℚ)), ("B", some 3), ("C", none)], p.2.isSome) ∧
      ((∀ q ∈ _normalize [("A", some (1 : ℚ)), ("B", some 3), ("C", none)]
          true, 0 ≤ q.2 ∧ q.2 ≤ 1) ∧
        List.Forall₂ (fun p q => p.1 = q.1 ∧ (p.2 = none → q.2 = 0))
          [("A", some (1 : ℚ)), ("B", some 3), ("C", none)]
          (_normalize [("A", some (1 : ℚ)), ("B", some 3), ("C", none)]
            true)) :=
  ⟨⟨("A", some 1), by norm_num⟩,
    normalize_unit_interval _ true ⟨("A", some 1), by norm_num⟩⟩

/-- C4: degenerate-range policy of _normalize.  With zero usable values
every ticker scores exactly 0; and whenever the usable values are all
equal within floating-point closeness (pairwise, under the source's
math.isclose tolerances; exact equality is the special case of zero
distance) every ticker with a usable value scores exactly 1 and every
other ticker exactly 0, for both orientations of the metric (the
orientation flag is universally quantified). -/
theorem normalize_degenerate (metric : List (String × Option ℚ))
    (higher_is_better : Bool) :
    ((∀ p ∈ metric, p.2 = none) →
      ∀ q ∈ _normalize metric higher_is_better, q.2 = 0) ∧
    ((∀ p ∈ metric, ∀ q ∈ metric, ∀ u v : ℚ,
        p.2 = some u → q.2 = some v → isclose u v = true) →
      List.Forall₂
        (fun p q => p.1 = q.1 ∧ q.2 = if p.2.isSome then (1 : ℚ) else 0)
        metric (_normalize metric higher_is_better)) := by
  constructor
  · intro hnone q hq
    have hvalid : metric.filterMap (fun p => p.2.map fun v => (p.1, v)) = [] := by
      rw [List.filterMap_eq_nil_iff]
      intro p hp
      rw [hnone p hp]
      rfl
    rw [normalize_eq_of_no_valid hvalid] at hq
    obtain ⟨p, _, rfl⟩ := List.mem_map.mp hq
    rfl
  · intro hclose
    rcases hvalid : metric.filterMap (fun p => p.2.map fun v => (p.1, v)) with
      _ | ⟨⟨s0, v0⟩, rest⟩
    · rw [normalize_eq_of_no_valid hvalid]
      refine forall2_map_self _ _ _ fun p hp => ⟨rfl, ?_⟩
      rcases hp2 : p.2 with _ | v
      · simp [hp2]
      · have : (p.1, v) ∈
            metric.filterMap (fun p => p.2.map fun v => (p.1, v)) :=
          mem_valid_of_mem hp hp2
        rw [hvalid] at this
        cases this
    · have husable : ∀ w ∈ (s0, v0) :: rest, ∃ p ∈ metric, p.2 = some w.2 := by
        intro w hw
        rw [← hvalid] at hw
        obtain ⟨p, hp, hfp⟩ := List.mem_filterMap.mp hw
        rcases hp2 : p.2 with _ | v
        · rw [hp2] at hfp
          cases hfp
        · rw [hp2] at hfp
          cases hfp
          exact ⟨p, hp, hp2⟩
      have hminU : ∃ p ∈ metric,
          p.2 = some (rest.foldl (fun m q => min m q.2) v0) := by
        rcases foldl_min_attained rest v0 with hm | ⟨q, hq, hm⟩
        · rw [hm]
          exact husable (s0, v0) (List.mem_cons_self _ _)
        · rw [hm]
          exact husable q (List.mem_cons_of_mem _ hq)
      have hmaxU : ∃ p ∈ metric,
          p.2 = some (rest.foldl (fun m q => max m q.2) v0) := by
        rcases foldl_max_attained rest v0 with hm | ⟨q, hq, hm⟩
        · rw [hm]
          exact husable (s0, v0) (List.mem_cons_self _ _)
        · rw [hm]
          exact husable q (List.mem_cons_of_mem _ hq)
      obtain ⟨pm, hpm, hpm2⟩ := hminU
      obtain ⟨pM, hpM, hpM2⟩ := hmaxU
      have hc := hclose pm hpm pM hpM _ _ hpm2 hpM2
      rw [normalize_eq_of_isclose hvalid hc]
      exact forall2_map_self _ _ _ fun p _ => ⟨rfl, rfl⟩

/-- Witness for C4: an all-absent metric vector normalizes to all
zeros, and a vector whose two present values differ by one part in ten
billion (close under the default tolerances but not equal) normalizes
to 1 on the present tickers and 0 on the absent one. -/
theorem normalize_degenerate_witness :
    (∀ q ∈ _normalize [("A", (none : Option ℚ)), ("B", none)] true,
      q.2 = 0) ∧
    List.Forall₂
      (fun p q => p.1 = q.1 ∧ q.2 = if p.2.isSome then (1 : ℚ) else 0)
      [("A", some (1 : ℚ)), ("B", some (1 + 1 / 10000000000)), ("C", none)]
      (_normalize
        [("A", some (1 : ℚ)), ("B", some (1 + 1 / 10000000000)), ("C", none)]
        false) :=
  ⟨(normalize_degenerate [("A", none), ("B", none)] true).1 (by norm_num),
    (normalize_degenerate
        [("A", some 1), ("B", some (1 + 1 / 10000000000)), ("C", none)]
        false).2 (by
          intro p hp q hq u v hu hv
          simp only [List.mem_cons, List.not_mem_nil, or_false] at hp hq
          rcases hp with rfl | rfl | rfl <;> rcases hq with rfl | rfl | rfl <;>
            cases hu <;> cases hv
          · exact isclose_self _
          · exact isclose_near
          · rw [isclose_comm]
            exact isclose_near
          · exact isclose_self _)⟩

/-- C5: momentum contract.  A close series shorter than 22 points fails
with the insufficient-history error; a series of at least 22 points
yields last_close / close_22_sessions_ago - 1, phrased here through
reverse indexing (positions 0 and 21 from the end, Python's [-1] and
[-22]); and the 22-point series [100]*21 ++ [110] yields exactly 1/10. -/
theorem momentum_contract :
    (∀ close_prices : List ℚ, close_prices.length < LOOKBACK_DAYS + 1 →
      _compute_momentum close_prices =
        .error "Not enough price history to compute momentum") ∧
    (∀ close_prices : List ℚ, LOOKBACK_DAYS + 1 ≤ close_prices.length →
      _compute_momentum close_prices =
        .ok (close_prices.reverse.getD 0 0 /
          close_prices.reverse.getD 21 0 - 1)) ∧
    _compute_momentum (List.replicate 21 (100 : ℚ) ++ [110]) =
      .ok (1 / 10) := by
  refine ⟨fun close_prices h => ?_, fun close_prices h => ?_, ?_⟩
  · rw [_compute_momentum, if_pos (by simp only [LOOKBACK_DAYS] at h ⊢; omega)]
  · have hlen : 22 ≤ close_prices.length := h
    rw [_compute_momentum, if_neg (by simp only [LOOKBACK_DAYS]; omega)]
    have h0 : close_prices.reverse.getD 0 0 =
        close_prices.getD (close_prices.length - 1) 0 := by
      rw [List.getD_eq_getElem?_getD, List.getD_eq_getElem?_getD,
        List.getElem?_reverse (by omega)]
      norm_num
    have h21 : close_prices.reverse.getD 21 0 =
        close_prices.getD (close_prices.length - 22) 0 := by
      rw [List.getD_eq_getElem?_getD, List.getD_eq_getElem?_getD,
        List.getElem?_reverse (by omega)]
      have hidx : close_prices.length - 1 - 21 = close_prices.length - 22 := by
        omega
      rw [hidx]
    rw [h0, h21]
    rfl
  · rw [_compute_momentum, if_neg (by simp [LOOKBACK_DAYS])]
    norm_num [LOOKBACK_DAYS, List.getD_eq_getElem?_getD,
      List.getElem?_append, List.getElem?_replicate,
      List.getElem_append, List.getElem_replicate]

/-- Witness for C5: the two hypothesis-bearing conjuncts applied at a
21-point and a 22-point series. -/
theorem momentum_contract_witness :
    ((List.replicate 21 (100 : ℚ)).length < LOOKBACK_DAYS + 1 ∧
      _compute_momentum (List.replicate 21 (100 : ℚ)) =
        .error "Not enough price history to compute momentum") ∧
    (LOOKBACK_DAYS + 1 ≤ (List.replicate 21 (100 : ℚ) ++ [110]).length ∧
      _compute_momentum (List.replicate 21 (100 : ℚ) ++ [110]) =
        .ok ((List.replicate 21 (100 : ℚ) ++ [110]).reverse.getD 0 0 /
          (List.replicate 21 (100 : ℚ) ++ [110]).reverse.getD 21 0 - 1)) :=
  ⟨⟨by simp [LOOKBACK_DAYS],
      momentum_contract.1 _ (by simp [LOOKBACK_DAYS])⟩,
    ⟨by simp [LOOKBACK_DAYS],
      momentum_contract.2.1 _ (by simp [LOOKBACK_DAYS])⟩⟩

/-- Twenty-one identical returns have zero variance, so the annualized
volatility is exactly 0. -/
theorem volatility_const (c : ℝ) :
    _compute_volatility (List.replicate 21 c) = .ok 0 := by
  rw [_compute_volatility, if_neg (by simp [LOOKBACK_DAYS])]
  norm_num [LOOKBACK_DAYS, List.sum_replicate, List.map_replicate,
    nsmul_eq_mul]

/-- C6: volatility contract.  Fewer than 21 returns fail with the
insufficient-return-history error; at least 21 returns yield the square
root of the population variance (dividing by N, the window length 21,
not N-1) of the most recent 21 returns, annualized by sqrt(252); and 21
identical returns yield exactly 0. -/
theorem volatility_contract :
    (∀ returns : List ℝ, returns.length < LOOKBACK_DAYS →
      _compute_volatility returns =
        .error "Not enough return history to compute volatility") ∧
    (∀ returns : List ℝ, LOOKBACK_DAYS ≤ returns.length →
      _compute_volatility returns =
        .ok (Real.sqrt
          (populationVariance (returns.drop (returns.length - 21))) *
          Real.sqrt 252)) ∧
    (∀ c : ℝ, _compute_volatility (List.replicate 21 c) = .ok 0) := by
  refine ⟨fun returns h => ?_, fun returns h => ?_, volatility_const⟩
  · rw [_compute_volatility, if_pos (by simp only [LOOKBACK_DAYS] at h ⊢; omega)]
  · have hlen : 21 ≤ returns.length := h
    rw [_compute_volatility, if_neg (by simp only [LOOKBACK_DAYS]; omega)]
    simp only [LOOKBACK_DAYS, populationVariance, ANNUALIZATION_FACTOR]
    have hw : (returns.drop (returns.length - 21)).length = 21 := by
      rw [List.length_drop]
      omega
    rw [hw]

/-- Witness for C6: the error conjunct at 20 returns, the formula
conjunct at 21 zero returns, and the zero-volatility conjunct at 21 zero
returns. -/
theorem volatility_contract_witness :
    ((List.replicate 20 (0 : ℝ)).length < LOOKBACK_DAYS ∧
      _compute_volatility (List.replicate 20 (0 : ℝ)) =
        .error "Not enough return history to compute volatility") ∧
    (LOOKBACK_DAYS ≤ (List.replicate 21 (0 : ℝ)).length ∧
      _compute_volatility (List.replicate 21 (0 : ℝ)) =
        .ok (Real.sqrt (populationVariance ((List.replicate 21 (0 : ℝ)).drop
          ((List.replicate 21 (0 : ℝ)).length - 21))) * Real.sqrt 252)) ∧
    _compute_volatility (List.replicate 21 (0 : ℝ)) = .ok 0 :=
  ⟨⟨by simp [LOOKBACK_DAYS],
      volatility_contract.1 _ (by simp [LOOKBACK_DAYS])⟩,
    ⟨by simp [LOOKBACK_DAYS],
      volatility_contract.2.1 _ (by simp [LOOKBACK_DAYS])⟩,
    volatility_contract.2.2 0⟩

/-- Percent changes of a constant series: n+1 equal closes give n
identical returns c/c - 1. -/
theorem pct_changes_replicate {K : Type} [Field K] (n : ℕ) (c : K) :
    _pct_changes (List.replicate (n + 1) c) = List.replicate n (c / c - 1) := by
  induction n with
  | zero => rfl
  | succ k ih =>
    have hL : List.replicate (k + 1 + 1) c = c :: List.replicate (k + 1) c :=
      List.replicate_succ c (k + 1)
    rw [hL, List.replicate_succ]
    calc _pct_changes (c :: List.replicate (k + 1) c)
        = (c / c - 1) :: _pct_changes (List.replicate (k + 1) c) := by
          rw [List.replicate_succ]
          rfl
      _ = (c / c - 1) :: List.replicate k (c / c - 1) := by rw [ih]

/-- A concrete successful fetch: 22 equal closes produce momentum 0 and
volatility 0, with every fundamental field absent. -/
theorem fetch_concrete_run :
    _fetch_analysis "T" { close := List.replicate 22 (1 : ℝ) } =
      .ok { ticker := "T"
            momentum_21d := some 0
            volatility_21d := some 0 } := by
  have hm : _compute_momentum (List.replicate 22 (1 : ℝ)) = .ok 0 := by
    rw [_compute_momentum, if_neg (by simp [LOOKBACK_DAYS])]
    norm_num [LOOKBACK_DAYS, List.getD_eq_getElem?_getD,
      List.getElem?_replicate]
  have h22 : (22 : ℕ) = 21 + 1 := rfl
  have hp : _pct_changes (List.replicate 22 (1 : ℝ)) =
      List.replicate 21 0 := by
    rw [h22, pct_changes_replicate]
    norm_num
  have hv := volatility_const (0 : ℝ)
  rw [_fetch_analysis]
  have he : (List.replicate 22 (1 : ℝ)).isEmpty = false := rfl
  simp only [he, Bool.false_eq_true, if_false, bind, Except.bind, pure,
    Except.pure]
  rw [hm, hp, hv]
  rfl

/-- C10: every analysis produced by a successful _fetch_analysis has
both momentum_21d and volatility_21d set, even though the StockAnalysis
type declares each metric field as independently optional: the fetch
either computes both window metrics or fails for that ticker. -/
theorem fetch_sets_window_metrics :
    ∀ (ticker : String) (snap : RawSnapshot) (a : StockAnalysis ℝ),
      _fetch_analysis ticker snap = .ok a →
      a.momentum_21d.isSome ∧ a.volatility_21d.isSome := by
  intro ticker snap a h
  rw [_fetch_analysis] at h
  by_cases he : snap.close.isEmpty
  · simp [he, throw, throwThe, MonadExceptOf.throw, bind, Except.bind] at h
  · simp only [he, Bool.false_eq_true, if_false, bind, Except.bind, pure,
      Except.pure] at h
    rcases hmres : _compute_momentum snap.close with e | m
    · rw [hmres] at h
      cases h
    · rw [hmres] at h
      rcases hvres : _compute_volatility (_pct_changes snap.close) with e | v
      · rw [hvres] at h
        cases h
      · rw [hvres] at h
        cases h
        simp

/-- Witness for C10 on the concrete 22-equal-closes snapshot. -/
theorem fetch_sets_window_metrics_witness :
    (_fetch_analysis "T" { close := List.replicate 22 (1 : ℝ) } =
      .ok { ticker := "T"
            momentum_21d := some 0
            volatility_21d := some 0 }) ∧
    ((({ ticker := "T", momentum_21d := some 0, volatility_21d := some 0 } :
        StockAnalysis ℝ).momentum_21d).isSome ∧
      (({ ticker := "T", momentum_21d := some 0, volatility_21d := some 0 } :
        StockAnalysis ℝ).volatility_21d).isSome) :=
  ⟨fetch_concrete_run,
    fetch_sets_window_metrics "T" _ _ fetch_concrete_run⟩

section DictLemmas

variable {β : Type}

/-- Key membership after a dict assignment: the old keys plus the
assigned key. -/
theorem mem_keys_dictInsert {d : List (String × β)} {k x : String} {v : β} :
    x ∈ keys (dictInsert d k v) ↔ x ∈ keys d ∨ x = k := by
  rw [dictInsert]
  by_cases hc : d.any fun p => p.1 == k
  · rw [if_pos hc]
    obtain ⟨q, hq, hqk⟩ := List.any_eq_true.mp hc
    have hk : k ∈ keys d := by
      rw [keys]
      exact List.mem_map.mpr ⟨q, hq, eq_of_beq hqk⟩
    have hkeys : keys (d.map fun p => if p.1 == k then (k, v) else p) =
        keys d := by
      rw [keys, keys, List.map_map]
      refine List.map_congr_left fun p _ => ?_
      by_cases hbeq : p.1 == k
      · simp only [Function.comp_apply, if_pos hbeq]
        exact (eq_of_beq hbeq).symm
      · simp only [Function.comp_apply, if_neg hbeq]
    rw [hkeys]
    constructor
    · exact fun h => Or.inl h
    · rintro (h | rfl)
      · exact h
      · exact hk
  · rw [if_neg hc, keys, List.map_append]
    simp [keys]

/-- The assigned pair is always present after a dict assignment. -/
theorem mem_dictInsert_self (d : List (String × β)) (k : String) (v : β) :
    (k, v) ∈ dictInsert d k v := by
  rw [dictInsert]
  by_cases hc : d.any fun p => p.1 == k
  · rw [if_pos hc]
    obtain ⟨q, hq, hqk⟩ := List.any_eq_true.mp hc
    exact List.mem_map.mpr ⟨q, hq, by rw [if_pos hqk]⟩
  · rw [if_neg hc]
    exact List.mem_append_right _ (List.mem_singleton.mpr rfl)

/-- Every pair present after a dict assignment was present before or is
the assigned pair. -/
theorem mem_of_mem_dictInsert {d : List (String × β)} {k : String} {v : β}
    {p : String × β} (h : p ∈ dictInsert d k v) : p ∈ d ∨ p = (k, v) := by
  rw [dictInsert] at h
  by_cases hc : d.any fun p => p.1 == k
  · rw [if_pos hc] at h
    obtain ⟨q, hq, hqp⟩ := List.mem_map.mp h
    by_cases hbeq : q.1 == k
    · rw [if_pos hbeq] at hqp
      exact Or.inr hqp.symm
    · rw [if_neg hbeq] at hqp
      exact Or.inl (hqp ▸ hq)
  · rw [if_neg hc] at h
    rcases List.mem_append.mp h with h | h
    · exact Or.inl h
    · exact Or.inr (List.mem_singleton.mp h)

/-- A pair survives a dict assignment whenever the assignment would
write the same value at its key. -/
theorem mem_dictInsert_of_mem {d : List (String × β)} {k : String} {v : β}
    {p : String × β} (h : p ∈ d) (hcomp : p.1 = k → p.2 = v) :
    p ∈ dictInsert d k v := by
  rw [dictInsert]
  by_cases hc : d.any fun q => q.1 == k
  · rw [if_pos hc]
    refine List.mem_map.mpr ⟨p, h, ?_⟩
    by_cases hbeq : p.1 == k
    · rw [if_pos hbeq]
      have h1 : p.1 = k := eq_of_beq hbeq
      rw [← h1, ← hcomp h1]
    · rw [if_neg hbeq]
  · rw [if_neg hc]
    exact List.mem_append_left _ h

end DictLemmas

/-- The stable descending sort permutes its input. -/
theorem rankDescending_perm (l : List RankedStock) :
    (rankDescending l).Perm l :=
  List.mergeSort_perm l _

/-- The stable descending sort is sorted by non-increasing composite
score. -/
theorem rankDescending_sorted (l : List RankedStock) :
    (rankDescending l).Pairwise
      (fun a b => b.composite_score ≤ a.composite_score) := by
  have h := @List.sorted_mergeSort RankedStock
    (fun a b => decide (b.composite_score ≤ a.composite_score))
    (fun a b c hab hbc => by
      rw [decide_eq_true_eq] at hab hbc ⊢
      exact le_trans hbc hab)
    (fun a b => by
      rcases le_total b.composite_score a.composite_score with hle | hle
      · simp [hle]
      · simp [hle])
    l
  exact h.imp fun hab => of_decide_eq_true hab

/-- The sort preserves length. -/
theorem rankDescending_length (l : List RankedStock) :
    (rankDescending l).length = l.length :=
  List.length_mergeSort l

/-- The scoring loop emits one RankedStock per surviving ticker, whose
ticker field is the dict key. -/
theorem map_ticker_buildRanked (A : List (String × StockAnalysis ℚ))
    (vw mw rw : ℚ) :
    (buildRanked A vw mw rw).map RankedStock.ticker = keys A := by
  simp only [buildRanked, List.map_map]
  rfl

/-- The scoring loop preserves the number of surviving tickers. -/
theorem length_buildRanked (A : List (String × StockAnalysis ℚ))
    (vw mw rw : ℚ) : (buildRanked A vw mw rw).length = A.length := by
  simp only [buildRanked, List.length_map]

section GatherLemmas

variable {fetch : String → FetchOutcome}

/-- Key characterization of the per-ticker loop: after a successful
pass, the analyses keys are the initial ones plus the processed tickers
whose fetch succeeds, and the failure keys are the initial ones plus the
processed tickers whose fetch raises an AnalysisError.  The fetch is a
function, so a repeated ticker meets the same outcome each time. -/
theorem gatherOutcomes_ok_keys :
    ∀ {ts : List String} {A F A' F' : List (String × _)},
      gatherOutcomes fetch ts A F = .ok (A', F') →
      ∀ x, (x ∈ keys A' ↔ x ∈ keys A ∨ (x ∈ ts ∧ ∃ a, fetch x = .ok a)) ∧
        (x ∈ keys F' ↔ x ∈ keys F ∨ (x ∈ ts ∧ ∃ r, fetch x = .soft r)) := by
  intro ts
  induction ts with
  | nil =>
    intro A F A' F' h x
    rw [gatherOutcomes] at h
    cases h
    simp
  | cons t rest ih =>
    intro A F A' F' h x
    rw [gatherOutcomes] at h
    rcases hfetch : fetch t with a | r | m <;> rw [hfetch] at h
    · refine ⟨?_, ?_⟩
      · rw [(ih h x).1, mem_keys_dictInsert]
        constructor
        · rintro ((hx | rfl) | ⟨hrest, ha⟩)
          · exact Or.inl hx
          · exact Or.inr ⟨List.mem_cons_self _ _, a, hfetch⟩
          · exact Or.inr ⟨List.mem_cons_of_mem _ hrest, ha⟩
        · rintro (hx | ⟨hmem, ha⟩)
          · exact Or.inl (Or.inl hx)
          · rcases List.mem_cons.mp hmem with rfl | hrest
            · exact Or.inl (Or.inr rfl)
            · exact Or.inr ⟨hrest, ha⟩
      · rw [(ih h x).2]
        constructor
        · rintro (hx | ⟨hrest, hr⟩)
          · exact Or.inl hx
          · exact Or.inr ⟨List.mem_cons_of_mem _ hrest, hr⟩
        · rintro (hx | ⟨hmem, hr⟩)
          · exact Or.inl hx
          · rcases List.mem_cons.mp hmem with rfl | hrest
            · obtain ⟨r, hr⟩ := hr
              rw [hfetch] at hr
              cases hr
            · exact Or.inr ⟨hrest, hr⟩
    · refine ⟨?_, ?_⟩
      · rw [(ih h x).1]
        constructor
        · rintro (hx | ⟨hrest, ha⟩)
          · exact Or.inl hx
          · exact Or.inr ⟨List.mem_cons_of_mem _ hrest, ha⟩
        · rintro (hx | ⟨hmem, ha⟩)
          · exact Or.inl hx
          · rcases List.mem_cons.mp hmem with rfl | hrest
            · obtain ⟨a, ha⟩ := ha
              rw [hfetch] at ha
              cases ha
            · exact Or.inr ⟨hrest, ha⟩
      · rw [(ih h x).2, mem_keys_dictInsert]
        constructor
        · rintro ((hx | rfl) | ⟨hrest, hr⟩)
          · exact Or.inl hx
          · exact Or.inr ⟨List.mem_cons_self _ _, r, hfetch⟩
          · exact Or.inr ⟨List.mem_cons_of_mem _ hrest, hr⟩
        · rintro (hx | ⟨hmem, hr⟩)
          · exact Or.inl (Or.inl hx)
          · rcases List.mem_cons.mp hmem with rfl | hrest
            · exact Or.inl (Or.inr rfl)
            · exact Or.inr ⟨hrest, hr⟩
    · cases h

/-- The per-ticker loop ends in the fatal wrapped error exactly when
some processed ticker meets an unexpected (hard) failure. -/
theorem gatherOutcomes_error_iff :
    ∀ {ts : List String} {A F : List (String × _)},
      (∃ e, gatherOutcomes fetch ts A F = .error e) ↔
        ∃ t ∈ ts, ∃ m, fetch t = .hard m := by
  intro ts
  induction ts with
  | nil =>
    intro A F
    rw [gatherOutcomes]
    simp
  | cons t rest ih =>
    intro A F
    rw [gatherOutcomes]
    rcases hfetch : fetch t with a | r | m
    · rw [ih]
      constructor
      · rintro ⟨u, hu, m, hm⟩
        exact ⟨u, List.mem_cons_of_mem _ hu, m, hm⟩
      · rintro ⟨u, hu, m, hm⟩
        rcases List.mem_cons.mp hu with rfl | hu
        · rw [hfetch] at hm
          cases hm
        · exact ⟨u, hu, m, hm⟩
    · rw [ih]
      constructor
      · rintro ⟨u, hu, m, hm⟩
        exact ⟨u, List.mem_cons_of_mem _ hu, m, hm⟩
      · rintro ⟨u, hu, m, hm⟩
        rcases List.mem_cons.mp hu with rfl | hu
        · rw [hfetch] at hm
          cases hm
        · exact ⟨u, hu, m, hm⟩
    · constructor
      · intro _
        exact ⟨t, List.mem_cons_self _ _, m, hfetch⟩
      · intro _
        exact ⟨_, rfl⟩

/-- The loop aborts at the first ticker with an unexpected failure, and
the fatal error wraps that ticker and its underlying cause. -/
theorem gatherOutcomes_first_hard {t0 m : String} (hm : fetch t0 = .hard m) :
    ∀ (pre : List String) (post : List String) (A F : List (String × _)),
      (∀ t ∈ pre, ∀ m', fetch t ≠ .hard m') →
      gatherOutcomes fetch (pre ++ t0 :: post) A F =
        .error ("Failed to analyze " ++ t0 ++ ": " ++ m) := by
  intro pre
  induction pre with
  | nil =>
    intro post A F _
    rw [List.nil_append, gatherOutcomes, hm]
  | cons u pre' ih =>
    intro post A F hpre
    rw [List.cons_append, gatherOutcomes]
    rcases hfetch : fetch u with a | r | m'
    · exact ih post _ _ fun t ht => hpre t (List.mem_cons_of_mem _ ht)
    · exact ih post _ _ fun t ht => hpre t (List.mem_cons_of_mem _ ht)
    · exact absurd hfetch (hpre u (List.mem_cons_self _ _) m')

/-- Soundness of the failure dict: every recorded failure is either
initial or belongs to a processed ticker whose fetch raised an
AnalysisError with exactly that reason. -/
theorem gatherOutcomes_fail_sound :
    ∀ {ts : List String} {A F A' F' : List (String × _)},
      gatherOutcomes fetch ts A F = .ok (A', F') →
      ∀ p ∈ F', p ∈ F ∨ (p.1 ∈ ts ∧ fetch p.1 = .soft p.2) := by
  intro ts
  induction ts with
  | nil =>
    intro A F A' F' h p hp
    rw [gatherOutcomes] at h
    cases h
    exact Or.inl hp
  | cons t rest ih =>
    intro A F A' F' h p hp
    rw [gatherOutcomes] at h
    rcases hfetch : fetch t with a | r | m <;> rw [hfetch] at h
    · rcases ih h p hp with hmem | ⟨hrest, hsoft⟩
      · exact Or.inl hmem
      · exact Or.inr ⟨List.mem_cons_of_mem _ hrest, hsoft⟩
    · rcases ih h p hp with hmem | ⟨hrest, hsoft⟩
      · rcases mem_of_mem_dictInsert hmem with hmem' | rfl
        · exact Or.inl hmem'
        · exact Or.inr ⟨List.mem_cons_self _ _, hfetch⟩
      · exact Or.inr ⟨List.mem_cons_of_mem _ hrest, hsoft⟩
    · cases h

/-- Completeness of the failure dict: a processed ticker whose fetch
raises an AnalysisError is recorded with its reason, the batch
continuing past it. -/
theorem gatherOutcomes_fail_complete :
    ∀ {ts : List String} {A F A' F' : List (String × _)},
      gatherOutcomes fetch ts A F = .ok (A', F') →
      (∀ p ∈ F, fetch p.1 = .soft p.2) →
      ∀ t r, fetch t = .soft r → (t ∈ ts ∨ (t, r) ∈ F) → (t, r) ∈ F' := by
  intro ts
  induction ts with
  | nil =>
    intro A F A' F' h _ t r _ hcase
    rw [gatherOutcomes] at h
    cases h
    rcases hcase with hmem | hmem
    · cases hmem
    · exact hmem
  | cons u rest ih =>
    intro A F A' F' h hF t r hsoft hcase
    rw [gatherOutcomes] at h
    rcases hfetch : fetch u with a | ru | m <;> rw [hfetch] at h
    · refine ih h hF t r hsoft ?_
      rcases hcase with hmem | hmem
      · rcases List.mem_cons.mp hmem with rfl | hrest
        · rw [hfetch] at hsoft
          cases hsoft
        · exact Or.inl hrest
      · exact Or.inr hmem
    · have hF2 : ∀ p ∈ dictInsert F u ru, fetch p.1 = .soft p.2 := by
        intro p hp
        rcases mem_of_mem_dictInsert hp with hp' | rfl
        · exact hF p hp'
        · exact hfetch
      refine ih h hF2 t r hsoft ?_
      rcases hcase with hmem | hmem
      · rcases List.mem_cons.mp hmem with rfl | hrest
        · rw [hfetch] at hsoft
          cases hsoft
          exact Or.inr (mem_dictInsert_self _ _ _)
        · exact Or.inl hrest
      · refine Or.inr (mem_dictInsert_of_mem hmem fun h1 => ?_)
        have := hF _ hmem
        rw [h1, hfetch] at this
        cases this
        rfl
    · cases h

end GatherLemmas

/-- Inversion of a successful analyze_universe run: the loop succeeded,
at least one ticker survived, the failures are the loop's failure dict,
and the ranked output is the sorted scoring output, truncated when a cap
was supplied. -/
theorem analyze_universe_ok_iff {fetch : String → FetchOutcome}
    {ts : List String} {vw mw rw : ℚ} {tn : Option Nat}
    {s : AnalysisSummary} :
    analyze_universe fetch ts vw mw rw tn = .ok s ↔
      ∃ A F, gatherOutcomes fetch ts [] [] = .ok (A, F) ∧ A ≠ [] ∧
        s.failures = F ∧
        s.ranked = (match tn with
          | some n => (rankDescending (buildRanked A vw mw rw)).take n
          | none => rankDescending (buildRanked A vw mw rw)) := by
  rcases hgr : gatherOutcomes fetch ts [] [] with e | ⟨A, F⟩
  · rw [analyze_universe, hgr]
    dsimp only
    constructor
    · intro h
      cases h
    · rintro ⟨A, F, hg', _, _, _⟩
      cases hg'
  · rw [analyze_universe, hgr]
    dsimp only
    by_cases hA : A.isEmpty = true
    · rw [if_pos hA]
      constructor
      · intro h
        cases h
      · rintro ⟨A', F', hg', hne, _, _⟩
        cases hg'
        exact absurd (List.isEmpty_iff.mp hA) hne
    · rw [if_neg hA]
      constructor
      · intro h
        cases h
        exact ⟨A, F, rfl, fun hnil => hA (List.isEmpty_iff.mpr hnil),
          rfl, rfl⟩
      · rintro ⟨A', F', hg', hne, hfail, hrank⟩
        cases hg'
        obtain ⟨sr, sf⟩ := s
        dsimp only at hrank hfail
        subst hrank
        subst hfail
        rfl

/-- C8: the ranked output of every successful analyze_universe run is
sorted by composite score in non-increasing order: each element's
composite score is at least that of the element that follows it. -/
theorem analyze_ranked_sorted (fetch : String → FetchOutcome)
    (ts : List String) (vw mw rw : ℚ) (tn : Option Nat)
    (s : AnalysisSummary)
    (hs : analyze_universe fetch ts vw mw rw tn = .ok s) :
    s.ranked.Chain' (fun a b => b.composite_score ≤ a.composite_score) := by
  obtain ⟨A, F, hg, hne, hfail, hrank⟩ := analyze_universe_ok_iff.mp hs
  have hsorted := rankDescending_sorted (buildRanked A vw mw rw)
  have hpair : s.ranked.Pairwise
      (fun a b => b.composite_score ≤ a.composite_score) := by
    rw [hrank]
    cases tn with
    | none => exact hsorted
    | some n => exact List.Pairwise.sublist (List.take_sublist n _) hsorted
  exact hpair.chain'

/-- A concrete mixed run: ticker A soft-fails, ticker B succeeds with
no optional metrics, so B ranks with all-zero scores and A is recorded
in the failure dict. -/
theorem analyze_concrete_mix :
    analyze_universe cFetchMix ["A", "B"] 1 0 0 (some 20) =
      .ok mixSummary := by
  norm_num +decide [analyze_universe, gatherOutcomes, cFetchMix, dictInsert,
    buildRanked, rankDescending, _normalize, isclose, scoreOf,
    List.mergeSort, mixSummary]

/-- Witness for C8 on the concrete mixed run. -/
theorem analyze_ranked_sorted_witness :
    (analyze_universe cFetchMix ["A", "B"] 1 0 0 (some 20) =
      .ok mixSummary) ∧
    List.Chain' (fun a b => b.composite_score ≤ a.composite_score)
      mixSummary.ranked :=
  ⟨analyze_concrete_mix,
    analyze_ranked_sorted cFetchMix ["A", "B"] 1 0 0 (some 20) _
      analyze_concrete_mix⟩

/-- The tickers of the sorted scoring output coincide, as a set, with
the surviving analyses keys. -/
theorem mem_map_ticker_rankDescending
    (A : List (String × StockAnalysis ℚ)) (vw mw rw : ℚ) (t : String) :
    t ∈ (rankDescending (buildRanked A vw mw rw)).map RankedStock.ticker ↔
      t ∈ keys A := by
  rw [← map_ticker_buildRanked A vw mw rw]
  exact ((rankDescending_perm _).map RankedStock.ticker).mem_iff

/-- C1 (amended): in every successful run, a ticker never appears in
both the ranked output and the failure map, and every ticker appearing
in either came from the input; when no result cap is supplied, every
input ticker appears in exactly one of the two.  (With a cap, survivors
beyond the cap are truncated away and appear in neither.) -/
theorem universe_partition (fetch : String → FetchOutcome)
    (ts : List String) (vw mw rw : ℚ) :
    (∀ tn s, analyze_universe fetch ts vw mw rw tn = .ok s →
      (∀ t, ¬(t ∈ s.ranked.map RankedStock.ticker ∧ t ∈ keys s.failures)) ∧
      (∀ t ∈ s.ranked.map RankedStock.ticker, t ∈ ts) ∧
      (∀ t ∈ keys s.failures, t ∈ ts)) ∧
    (∀ s, analyze_universe fetch ts vw mw rw none = .ok s →
      ∀ t, t ∈ ts ↔
        (t ∈ s.ranked.map RankedStock.ticker ∨ t ∈ keys s.failures)) := by
  have main : ∀ tn s, analyze_universe fetch ts vw mw rw tn = .ok s →
      ∀ t, (t ∈ s.ranked.map RankedStock.ticker →
          t ∈ ts ∧ ∃ a, fetch t = .ok a) ∧
        (t ∈ keys s.failures ↔ t ∈ ts ∧ ∃ r, fetch t = .soft r) ∧
        (tn = none → t ∈ ts → (∃ a, fetch t = .ok a) →
          t ∈ s.ranked.map RankedStock.ticker) := by
    intro tn s hs t
    obtain ⟨A, F, hg, hne, hfail, hrank⟩ := analyze_universe_ok_iff.mp hs
    have hchar := gatherOutcomes_ok_keys hg t
    have hcharA : t ∈ keys A ↔ t ∈ ts ∧ ∃ a, fetch t = .ok a := by
      rw [(hchar).1]
      simp [keys]
    have hcharF : t ∈ keys F ↔ t ∈ ts ∧ ∃ r, fetch t = .soft r := by
      rw [(hchar).2]
      simp [keys]
    refine ⟨?_, ?_, ?_⟩
    · intro hmem
      rw [hrank] at hmem
      have hA : t ∈ keys A := by
        cases tn with
        | none => exact (mem_map_ticker_rankDescending A vw mw rw t).mp hmem
        | some n =>
          obtain ⟨r, hr, rfl⟩ := List.mem_map.mp hmem
          exact (mem_map_ticker_rankDescending A vw mw rw _).mp
            (List.mem_map.mpr ⟨r, List.mem_of_mem_take hr, rfl⟩)
      exact hcharA.mp hA
    · rw [hfail]
      exact hcharF
    · rintro rfl hts ⟨a, ha⟩
      rw [hrank]
      exact (mem_map_ticker_rankDescending A vw mw rw t).mpr
        (hcharA.mpr ⟨hts, a, ha⟩)
  constructor
  · intro tn s hs
    refine ⟨?_, ?_, ?_⟩
    · rintro t ⟨hmemR, hmemF⟩
      obtain ⟨-, a, ha⟩ := (main tn s hs t).1 hmemR
      obtain ⟨-, r, hr⟩ := ((main tn s hs t).2.1).mp hmemF
      rw [ha] at hr
      cases hr
    · intro t ht
      exact ((main tn s hs t).1 ht).1
    · intro t ht
      exact (((main tn s hs t).2.1).mp ht).1
  · intro s hs t
    constructor
    · intro hts
      rcases hfetch : fetch t with a | r | m
      · exact Or.inl ((main none s hs t).2.2 rfl hts ⟨a, hfetch⟩)
      · exact Or.inr (((main none s hs t).2.1).mpr ⟨hts, r, hfetch⟩)
      · obtain ⟨A, F, hg, -, -, -⟩ := analyze_universe_ok_iff.mp hs
        obtain ⟨e, he⟩ := gatherOutcomes_error_iff.mpr ⟨t, hts, m, hfetch⟩
        rw [hg] at he
        cases he
    · rintro (ht | ht)
      · exact ((main none s hs t).1 ht).1
      · exact (((main none s hs t).2.1).mp ht).1

/-- A concrete capped run: both tickers succeed, top_n = 1 keeps only
the first; ticker B then appears in neither the ranked output nor the
failure map. -/
theorem analyze_concrete_cap :
    analyze_universe cFetchOk ["A", "B"] 1 0 0 (some 1) =
      .ok capSummary := by
  norm_num +decide [analyze_universe, gatherOutcomes, cFetchOk, dictInsert,
    buildRanked, rankDescending, _normalize, isclose, scoreOf,
    List.mergeSort, capSummary]

/-- Counterexample to C1 as frozen: with a result cap smaller than the
number of surviving tickers, a surviving input ticker is truncated out
of the ranked output while also absent from the failure map, so the
union of the two key sets is strictly smaller than the input set. -/
theorem universe_partition_counterexample :
    ¬ (∀ s, analyze_universe cFetchOk ["A", "B"] 1 0 0 (some 1) = .ok s →
        ∀ t ∈ ["A", "B"],
          t ∈ s.ranked.map RankedStock.ticker ∨ t ∈ keys s.failures) := by
  intro hclaim
  have h := hclaim capSummary analyze_concrete_cap "B" (by decide)
  revert h
  decide

/-- A concrete uncapped mixed run for the exactly-one part of C1. -/
theorem analyze_concrete_mix_none :
    analyze_universe cFetchMix ["A", "B"] 1 0 0 none = .ok mixSummary := by
  norm_num +decide [analyze_universe, gatherOutcomes, cFetchMix, dictInsert,
    buildRanked, rankDescending, _normalize, isclose, scoreOf,
    List.mergeSort, mixSummary]

/-- Witness for C1 (amended) on the concrete runs: the at-most-one and
input-subset parts on the capped run, the exactly-one part on the
uncapped mixed run. -/
theorem universe_partition_witness :
    ((analyze_universe cFetchOk ["A", "B"] 1 0 0 (some 1) =
        .ok capSummary) ∧
      (∀ t, ¬(t ∈ capSummary.ranked.map RankedStock.ticker ∧
          t ∈ keys capSummary.failures)) ∧
      (∀ t ∈ capSummary.ranked.map RankedStock.ticker, t ∈ ["A", "B"]) ∧
      (∀ t ∈ keys capSummary.failures, t ∈ ["A", "B"])) ∧
    ((analyze_universe cFetchMix ["A", "B"] 1 0 0 none = .ok mixSummary) ∧
      ∀ t, t ∈ ["A", "B"] ↔
        (t ∈ mixSummary.ranked.map RankedStock.ticker ∨
          t ∈ keys mixSummary.failures)) :=
  ⟨⟨analyze_concrete_cap,
      (universe_partition cFetchOk ["A", "B"] 1 0 0).1 (some 1) capSummary
        analyze_concrete_cap⟩,
    ⟨analyze_concrete_mix_none,
      (universe_partition cFetchMix ["A", "B"] 1 0 0).2 mixSummary
        analyze_concrete_mix_none⟩⟩

/-- The gathered dicts of the concrete mixed run. -/
theorem gather_concrete_mix :
    gatherOutcomes cFetchMix ["A", "B"] [] [] =
      .ok (mixAnalyses, mixFailures) := by
  norm_num +decide [gatherOutcomes, cFetchMix, dictInsert, mixAnalyses,
    mixFailures]

/-- C9 (amended): with an explicit cap top_n = n the ranked output
holds exactly min(n, survivors) entries, is the n-prefix of the
descending sort of the scored survivors, and every kept entry scores at
least every truncated entry; with an explicit None cap it covers every
surviving ticker; and when the caller leaves the cap unset it defaults
to 20 (the source's top_n: Optional[int] = 20) and truncates just as an
explicit cap of 20 does, so an unset cap does not return the full
ranked set once more than 20 tickers survive. -/
theorem top_n_truncation (fetch : String → FetchOutcome) (ts : List String)
    (vw mw rw : ℚ) (A : List (String × StockAnalysis ℚ))
    (F : List (String × String))
    (hg : gatherOutcomes fetch ts [] [] = .ok (A, F)) :
    (∀ s, analyze_universe fetch ts vw mw rw none = .ok s →
      s.ranked.length = A.length ∧
      ∀ t ∈ keys A, t ∈ s.ranked.map RankedStock.ticker) ∧
    (∀ n s, analyze_universe fetch ts vw mw rw (some n) = .ok s →
      s.ranked.length = min n A.length ∧
      s.ranked = (rankDescending (buildRanked A vw mw rw)).take n ∧
      ∀ r ∈ s.ranked,
        ∀ q ∈ (rankDescending (buildRanked A vw mw rw)).drop n,
          q.composite_score ≤ r.composite_score) ∧
    (∀ s, analyze_universe fetch ts vw mw rw = .ok s →
      s.ranked.length = min 20 A.length ∧
      s.ranked = (rankDescending (buildRanked A vw mw rw)).take 20 ∧
      ∀ r ∈ s.ranked,
        ∀ q ∈ (rankDescending (buildRanked A vw mw rw)).drop 20,
          q.composite_score ≤ r.composite_score) := by
  have hsome : ∀ n s, analyze_universe fetch ts vw mw rw (some n) = .ok s →
      s.ranked.length = min n A.length ∧
      s.ranked = (rankDescending (buildRanked A vw mw rw)).take n ∧
      ∀ r ∈ s.ranked,
        ∀ q ∈ (rankDescending (buildRanked A vw mw rw)).drop n,
          q.composite_score ≤ r.composite_score := by
    intro n s hs
    obtain ⟨A', F', hg', hne, hfail, hrank⟩ := analyze_universe_ok_iff.mp hs
    rw [hg] at hg'
    cases hg'
    refine ⟨?_, hrank, ?_⟩
    · rw [hrank, List.length_take, rankDescending_length, length_buildRanked]
    · intro r hr q hq
      have hsorted := rankDescending_sorted (buildRanked A vw mw rw)
      rw [← List.take_append_drop n
        (rankDescending (buildRanked A vw mw rw))] at hsorted
      have hsplit := (List.pairwise_append.mp hsorted).2.2
      rw [hrank] at hr
      exact hsplit r hr q hq
  refine ⟨?_, hsome, fun s hs => hsome 20 s hs⟩
  intro s hs
  obtain ⟨A', F', hg', hne, hfail, hrank⟩ := analyze_universe_ok_iff.mp hs
  rw [hg] at hg'
  cases hg'
  constructor
  · rw [hrank, rankDescending_length, length_buildRanked]
  · intro t ht
    rw [hrank]
    exact (mem_map_ticker_rankDescending A vw mw rw t).mpr ht

/-- The gathered dicts when all 21 tickers fetch successfully: every
ticker lands in the analyses dict in input order, none in the failure
dict. -/
theorem gather_concrete_21 :
    gatherOutcomes cFetchOk ts21 [] [] = .ok (okAnalyses21, []) := rfl

/-- Counterexample to C9 as frozen: its unset-cap clause.  The source
defaults top_n to 20 (algorithm.py:136) and truncates (lines 207-208),
so a run with 21 surviving tickers and the cap left unset returns only
20 entries: some surviving input ticker is missing from the ranked
output, which is therefore not the full ranked set. -/
theorem top_n_truncation_counterexample :
    ¬ (∀ s, analyze_universe cFetchOk ts21 1 0 0 = .ok s →
        ∀ t ∈ ts21, t ∈ s.ranked.map RankedStock.ticker) := by
  intro hclaim
  have hne : okAnalyses21 ≠ [] := by simp [okAnalyses21, ts21]
  have hok : analyze_universe cFetchOk ts21 1 0 0 = .ok
      { ranked := (rankDescending (buildRanked okAnalyses21 1 0 0)).take 20
        failures := [] } :=
    analyze_universe_ok_iff.mpr
      ⟨okAnalyses21, [], gather_concrete_21, hne, rfl, rfl⟩
  have hmem := hclaim _ hok
  have hnodup : ts21.Nodup := by decide
  have hlen := (hnodup.subperm fun t ht => hmem t ht).length_le
  rw [List.length_map, List.length_take, rankDescending_length,
    length_buildRanked] at hlen
  have h21 : okAnalyses21.length = 21 := by simp [okAnalyses21, ts21]
  have hts : ts21.length = 21 := by simp [ts21]
  rw [h21, hts] at hlen
  omega

/-- Witness for C9 on the concrete mixed runs: explicitly uncapped,
explicitly capped at 20, and with the cap left unset (defaulting to
20). -/
theorem top_n_truncation_witness :
    (gatherOutcomes cFetchMix ["A", "B"] [] [] =
      .ok (mixAnalyses, mixFailures)) ∧
    ((analyze_universe cFetchMix ["A", "B"] 1 0 0 none = .ok mixSummary) ∧
      mixSummary.ranked.length = mixAnalyses.length ∧
      ∀ t ∈ keys mixAnalyses,
        t ∈ mixSummary.ranked.map RankedStock.ticker) ∧
    ((analyze_universe cFetchMix ["A", "B"] 1 0 0 (some 20) =
        .ok mixSummary) ∧
      mixSummary.ranked.length = min 20 mixAnalyses.length ∧
      mixSummary.ranked =
        (rankDescending (buildRanked mixAnalyses 1 0 0)).take 20 ∧
      ∀ r ∈ mixSummary.ranked,
        ∀ q ∈ (rankDescending (buildRanked mixAnalyses 1 0 0)).drop 20,
          q.composite_score ≤ r.composite_score) ∧
    ((analyze_universe cFetchMix ["A", "B"] 1 0 0 = .ok mixSummary) ∧
      mixSummary.ranked.length = min 20 mixAnalyses.length ∧
      mixSummary.ranked =
        (rankDescending (buildRanked mixAnalyses 1 0 0)).take 20 ∧
      ∀ r ∈ mixSummary.ranked,
        ∀ q ∈ (rankDescending (buildRanked mixAnalyses 1 0 0)).drop 20,
          q.composite_score ≤ r.composite_score) :=
  ⟨gather_concrete_mix,
    ⟨analyze_concrete_mix_none,
      (top_n_truncation cFetchMix ["A", "B"] 1 0 0 mixAnalyses mixFailures
        gather_concrete_mix).1 mixSummary analyze_concrete_mix_none⟩,
    ⟨analyze_concrete_mix,
      (top_n_truncation cFetchMix ["A", "B"] 1 0 0 mixAnalyses mixFailures
        gather_concrete_mix).2.1 20 mixSummary analyze_concrete_mix⟩,
    ⟨analyze_concrete_mix,
      (top_n_truncation cFetchMix ["A", "B"] 1 0 0 mixAnalyses mixFailures
        gather_concrete_mix).2.2 mixSummary analyze_concrete_mix⟩⟩

/-- The source's inline conditional mean coincides with the spec-side
unweighted mean. -/
theorem unweightedMean_eq_ite (xs : List ℚ) :
    (if xs.isEmpty = true then (0 : ℚ) else xs.sum / xs.length) =
      unweightedMean xs := by
  cases xs <;> simp [unweightedMean]

/-- Every entry of a successful run's ranked output comes from the
scoring loop over the gathered analyses. -/
theorem mem_buildRanked_of_ok {fetch : String → FetchOutcome}
    {ts : List String} {vw mw rw : ℚ} {tn : Option Nat}
    {s : AnalysisSummary} {A : List (String × StockAnalysis ℚ)}
    {F : List (String × String)}
    (hg : gatherOutcomes fetch ts [] [] = .ok (A, F))
    (hs : analyze_universe fetch ts vw mw rw tn = .ok s) :
    ∀ r ∈ s.ranked, r ∈ buildRanked A vw mw rw := by
  intro r hr
  obtain ⟨A', F', hg', hne, hfail, hrank⟩ := analyze_universe_ok_iff.mp hs
  rw [hg] at hg'
  cases hg'
  rw [hrank] at hr
  cases tn with
  | none => exact (rankDescending_perm _).mem_iff.mp hr
  | some n =>
    exact (rankDescending_perm _).mem_iff.mp (List.mem_of_mem_take hr)

/-- Structural description of one scored entry: its sub-scores are the
normalized metric lookups at its ticker, its value score is the
unweighted mean of the valuation scores present for it, and its
composite is the raw weighted sum of the three sub-scores. -/
theorem buildRanked_entry_spec (A : List (String × StockAnalysis ℚ))
    (vw mw rw : ℚ) :
    ∀ r ∈ buildRanked A vw mw rw,
      r.composite_score =
        vw * r.value_score + mw * r.momentum_score + rw * r.risk_score ∧
      r.value_score = unweightedMean (
        (if r.analysis.pe_ratio.isSome then
          [scoreOf (_normalize (A.map fun p => (p.1, p.2.pe_ratio)) false)
            r.ticker] else []) ++
        (if r.analysis.pb_ratio.isSome then
          [scoreOf (_normalize (A.map fun p => (p.1, p.2.pb_ratio)) false)
            r.ticker] else []) ++
        (if r.analysis.free_cash_flow_yield.isSome then
          [scoreOf (_normalize
            (A.map fun p => (p.1, p.2.free_cash_flow_yield)) true)
            r.ticker] else [])) ∧
      r.momentum_score = scoreOf
        (_normalize (A.map fun p => (p.1, p.2.momentum_21d)) true)
        r.ticker ∧
      r.risk_score = scoreOf
        (_normalize (A.map fun p => (p.1, p.2.volatility_21d)) false)
        r.ticker ∧
      ((r.analysis.pe_ratio = none ∧ r.analysis.pb_ratio = none ∧
        r.analysis.free_cash_flow_yield = none) → r.value_score = 0) := by
  intro r hr
  simp only [buildRanked, List.mem_map] at hr
  obtain ⟨p, hp, rfl⟩ := hr
  dsimp only
  refine ⟨rfl, unweightedMean_eq_ite _, rfl, rfl, ?_⟩
  rintro ⟨h1, h2, h3⟩
  simp [h1, h2, h3]

/-- C7: in every successful run, each ranked entry's composite score is
the raw weighted sum value_weight * value + momentum_weight * momentum +
risk_weight * risk of its recorded sub-scores (no weight validation or
normalization), and its value sub-score is the unweighted mean of the
normalized scores of exactly those of P/E, P/B and FCF yield present on
that ticker, exactly 0 when none of the three is present. -/
theorem score_composition (fetch : String → FetchOutcome)
    (ts : List String) (vw mw rw : ℚ) (tn : Option Nat)
    (s : AnalysisSummary) (A : List (String × StockAnalysis ℚ))
    (F : List (String × String))
    (hg : gatherOutcomes fetch ts [] [] = .ok (A, F))
    (hs : analyze_universe fetch ts vw mw rw tn = .ok s) :
    ∀ r ∈ s.ranked,
      r.composite_score =
        vw * r.value_score + mw * r.momentum_score + rw * r.risk_score ∧
      r.value_score = unweightedMean (
        (if r.analysis.pe_ratio.isSome then
          [scoreOf (_normalize (A.map fun p => (p.1, p.2.pe_ratio)) false)
            r.ticker] else []) ++
        (if r.analysis.pb_ratio.isSome then
          [scoreOf (_normalize (A.map fun p => (p.1, p.2.pb_ratio)) false)
            r.ticker] else []) ++
        (if r.analysis.free_cash_flow_yield.isSome then
          [scoreOf (_normalize
            (A.map fun p => (p.1, p.2.free_cash_flow_yield)) true)
            r.ticker] else [])) ∧
      r.momentum_score = scoreOf
        (_normalize (A.map fun p => (p.1, p.2.momentum_21d)) true)
        r.ticker ∧
      r.risk_score = scoreOf
        (_normalize (A.map fun p => (p.1, p.2.volatility_21d)) false)
        r.ticker ∧
      ((r.analysis.pe_ratio = none ∧ r.analysis.pb_ratio = none ∧
        r.analysis.free_cash_flow_yield = none) → r.value_score = 0) :=
  fun r hr =>
    buildRanked_entry_spec A vw mw rw r (mem_buildRanked_of_ok hg hs r hr)

/-- Witness for C7 on the concrete mixed run. -/
theorem score_composition_witness :
    (gatherOutcomes cFetchMix ["A", "B"] [] [] =
      .ok (mixAnalyses, mixFailures)) ∧
    (analyze_universe cFetchMix ["A", "B"] 1 0 0 (some 20) =
      .ok mixSummary) ∧
    ∀ r ∈ mixSummary.ranked,
      r.composite_score =
        1 * r.value_score + 0 * r.momentum_score + 0 * r.risk_score ∧
      r.value_score = unweightedMean (
        (if r.analysis.pe_ratio.isSome then
          [scoreOf (_normalize
            (mixAnalyses.map fun p => (p.1, p.2.pe_ratio)) false)
            r.ticker] else []) ++
        (if r.analysis.pb_ratio.isSome then
          [scoreOf (_normalize
            (mixAnalyses.map fun p => (p.1, p.2.pb_ratio)) false)
            r.ticker] else []) ++
        (if r.analysis.free_cash_flow_yield.isSome then
          [scoreOf (_normalize
            (mixAnalyses.map fun p => (p.1, p.2.free_cash_flow_yield)) true)
            r.ticker] else [])) ∧
      r.momentum_score = scoreOf
        (_normalize (mixAnalyses.map fun p => (p.1, p.2.momentum_21d)) true)
        r.ticker ∧
      r.risk_score = scoreOf
        (_normalize
          (mixAnalyses.map fun p => (p.1, p.2.volatility_21d)) false)
        r.ticker ∧
      ((r.analysis.pe_ratio = none ∧ r.analysis.pb_ratio = none ∧
        r.analysis.free_cash_flow_yield = none) → r.value_score = 0) :=
  ⟨gather_concrete_mix, analyze_concrete_mix,
    score_composition cFetchMix ["A", "B"] 1 0 0 (some 20) mixSummary
      mixAnalyses mixFailures gather_concrete_mix analyze_concrete_mix⟩

/-- An analyses dict with no keys is empty. -/
theorem eq_nil_of_keys_nil {β : Type} {d : List (String × β)}
    (h : ∀ x, x ∉ keys d) : d = [] := by
  have : keys d = [] := List.eq_nil_iff_forall_not_mem.mpr h
  exact List.map_eq_nil_iff.mp this

/-- If no processed ticker fetches successfully, the loop gathers an
empty analyses dict. -/
theorem gather_analyses_nil {fetch : String → FetchOutcome}
    {ts : List String} {A : List (String × StockAnalysis ℚ)}
    {F : List (String × String)}
    (hg : gatherOutcomes fetch ts [] [] = .ok (A, F))
    (hfail : ∀ t ∈ ts, ∀ a, fetch t ≠ .ok a) : A = [] := by
  refine eq_nil_of_keys_nil fun x hx => ?_
  have := ((gatherOutcomes_ok_keys hg x).1).mp hx
  simp only [keys, List.map_nil, List.not_mem_nil, false_or] at this
  obtain ⟨hts, a, ha⟩ := this
  exact hfail x hts a ha

/-- C2: analyze_universe raises fatally exactly when some ticker meets
an unexpected error or no ticker fetches successfully.  When every
ticker soft-fails, the fatal message enumerates the failure dict, which
records every input ticker with its reason; when a ticker meets an
unexpected error after only non-hard predecessors, the run aborts with
that ticker's identity and cause wrapped, no partial results being
returned; and in every successful run each soft-failing ticker is
recorded in the returned failure map, the batch having continued. -/
theorem fatal_error_taxonomy (fetch : String → FetchOutcome)
    (ts : List String) (vw mw rw : ℚ) (tn : Option Nat) :
    ((∃ e, analyze_universe fetch ts vw mw rw tn = .error e) ↔
      ((∃ t ∈ ts, ∃ m, fetch t = .hard m) ∨
        (∀ t ∈ ts, ∀ a, fetch t ≠ .ok a))) ∧
    ((∀ t ∈ ts, ∃ r, fetch t = .soft r) →
      ∃ F, gatherOutcomes fetch ts [] [] = .ok ([], F) ∧
        analyze_universe fetch ts vw mw rw tn =
          .error ("Unable to analyze any tickers. Reasons: " ++
            failureReasonsText F) ∧
        (∀ t ∈ ts, ∃ r, (t, r) ∈ F ∧ fetch t = .soft r) ∧
        (∀ p ∈ F, p.1 ∈ ts ∧ fetch p.1 = .soft p.2)) ∧
    (∀ (pre post : List String) (t0 m : String),
      (∀ t ∈ pre, ∀ m', fetch t ≠ .hard m') → fetch t0 = .hard m →
      analyze_universe fetch (pre ++ t0 :: post) vw mw rw tn =
        .error ("Failed to analyze " ++ t0 ++ ": " ++ m)) ∧
    (∀ s, analyze_universe fetch ts vw mw rw tn = .ok s →
      ∀ t ∈ ts, ∀ r, fetch t = .soft r → (t, r) ∈ s.failures) := by
  refine ⟨⟨?_, ?_⟩, ?_, ?_, ?_⟩
  · rintro ⟨e, he⟩
    rcases hg : gatherOutcomes fetch ts [] [] with e' | ⟨A, F⟩
    · exact Or.inl (gatherOutcomes_error_iff.mp ⟨e', hg⟩)
    · rw [analyze_universe, hg] at he
      dsimp only at he
      by_cases hA : A.isEmpty = true
      · refine Or.inr fun t ht a ha => ?_
        have hmem : t ∈ keys A :=
          ((gatherOutcomes_ok_keys hg t).1).mpr (Or.inr ⟨ht, a, ha⟩)
        rw [List.isEmpty_iff.mp hA] at hmem
        cases hmem
      · rw [if_neg hA] at he
        cases he
  · rintro (hhard | hfail)
    · obtain ⟨e, he⟩ := gatherOutcomes_error_iff.mpr hhard
      exact ⟨e, by rw [analyze_universe, he]⟩
    · rcases hg : gatherOutcomes fetch ts [] [] with e' | ⟨A, F⟩
      · exact ⟨e', by rw [analyze_universe, hg]⟩
      · have hA : A = [] := gather_analyses_nil hg hfail
        subst hA
        refine ⟨"Unable to analyze any tickers. Reasons: " ++
          failureReasonsText F, ?_⟩
        rw [analyze_universe, hg]
        simp
  · intro hsoft
    rcases hg : gatherOutcomes fetch ts [] [] with e' | ⟨A, F⟩
    · obtain ⟨t, ht, m, hm⟩ := gatherOutcomes_error_iff.mp ⟨e', hg⟩
      obtain ⟨r, hr⟩ := hsoft t ht
      rw [hm] at hr
      cases hr
    · have hA : A = [] := by
        refine gather_analyses_nil hg fun t ht a ha => ?_
        obtain ⟨r, hr⟩ := hsoft t ht
        rw [ha] at hr
        cases hr
      subst hA
      refine ⟨F, rfl, ?_, ?_, ?_⟩
      · rw [analyze_universe, hg]
        simp
      · intro t ht
        obtain ⟨r, hr⟩ := hsoft t ht
        exact ⟨r, gatherOutcomes_fail_complete hg (by intro p hp; cases hp)
          t r hr (Or.inl ht), hr⟩
      · intro p hp
        rcases gatherOutcomes_fail_sound hg p hp with hmem | hok
        · cases hmem
        · exact hok
  · intro pre post t0 m hpre hm
    rw [analyze_universe, gatherOutcomes_first_hard hm pre post [] [] hpre]
  · intro s hs t ht r hr
    obtain ⟨A, F, hg, hne, hfail, hrank⟩ := analyze_universe_ok_iff.mp hs
    rw [hfail]
    exact gatherOutcomes_fail_complete hg (by intro p hp; cases hp)
      t r hr (Or.inl ht)

/-- Witness for C2: the error characterization instantiated on the
all-soft fetch, the all-soft fatal message on two soft tickers, the
wrapped first-hard error on a hard second ticker, and the recorded soft
failure of the successful mixed run. -/
theorem fatal_error_taxonomy_witness :
    ((∃ e, analyze_universe cFetchSoft ["A", "B"] 1 0 0 none = .error e) ↔
      ((∃ t ∈ ["A", "B"], ∃ m, cFetchSoft t = .hard m) ∨
        (∀ t ∈ ["A", "B"], ∀ a, cFetchSoft t ≠ .ok a))) ∧
    (∃ F, gatherOutcomes cFetchSoft ["A", "B"] [] [] = .ok ([], F) ∧
      analyze_universe cFetchSoft ["A", "B"] 1 0 0 none =
        .error ("Unable to analyze any tickers. Reasons: " ++
          failureReasonsText F) ∧
      (∀ t ∈ ["A", "B"], ∃ r, (t, r) ∈ F ∧ cFetchSoft t = .soft r) ∧
      (∀ p ∈ F, p.1 ∈ ["A", "B"] ∧ cFetchSoft p.1 = .soft p.2)) ∧
    (analyze_universe cFetchHard (["A"] ++ "B" :: []) 1 0 0 none =
      .error ("Failed to analyze " ++ "B" ++ ": " ++ "boom")) ∧
    ("A", "No price history available") ∈ mixSummary.failures :=
  ⟨(fatal_error_taxonomy cFetchSoft ["A", "B"] 1 0 0 none).1,
    (fatal_error_taxonomy cFetchSoft ["A", "B"] 1 0 0 none).2.1
      (fun t _ => ⟨"No price history available", rfl⟩),
    (fatal_error_taxonomy cFetchHard ["A", "B"] 1 0 0 none).2.2.1
      ["A"] [] "B" "boom"
      (by
        intro t ht m' hcontra
        fin_cases ht
        simp [cFetchHard] at hcontra)
      rfl,
    (fatal_error_taxonomy cFetchMix ["A", "B"] 1 0 0 (some 20)).2.2.2
      mixSummary analyze_concrete_mix "A" (by decide)
      "No price history available" rfl⟩

end GptInvesting
